import Mathlib

/-!
Verification of the Quidel incremental update reconciliation engine
(`src/acquisition/quidel/quidel_update.py`).

The embedding models the `quidel` table as a list of rows keyed by
(location, epiweek) with the three metric columns (`value`, `num_rows`,
`num_devices`) as optional rationals, the SQL
`INSERT ... ON DUPLICATE KEY UPDATE` statements as an `upsert` operation on
that list, the per-metric passes of `update_quid_db`, the window resolution,
the `update` driver and the `main` entry point.  Collaborators that live in
the repository but outside the visible source (`quidel.measurement_to_ts`,
`delphi.utils.epiweek`, `Locations.hhs_list`) are modelled from the spec and
are marked as such in their doc comments.
-/

namespace Quidel

/-- The three metric columns of the `quidel` table; `update_quid_db` selects
one of the three near-identical SQL templates from this tag
(`update_field` in the source). -/
inductive Metric
  | value
  | num_rows
  | num_devices
  deriving DecidableEq, Repr

/-- A row of the `quidel` table: keyed by (location, epiweek), carrying the
three metric columns.  A column that no pass has written yet is `none`
(the SQL INSERT only names one metric column, the others keep their
defaults). -/
structure QuidelRow where
  location : String
  epiweek : Int
  value : Option Rat
  num_rows : Option Rat
  num_devices : Option Rat
  deriving DecidableEq, Repr

/-- The stored table, as the list of its rows. -/
abbrev DB := List QuidelRow

/-- The unique key of a stored row: (location, epiweek). -/
abbrev RKey := String × Int

def rkey (r : QuidelRow) : RKey := (r.location, r.epiweek)

def setMetric (r : QuidelRow) (f : Metric) (v : Rat) : QuidelRow :=
  match f with
  | Metric.value => { r with value := some v }
  | Metric.num_rows => { r with num_rows := some v }
  | Metric.num_devices => { r with num_devices := some v }

def getMetric (r : QuidelRow) (f : Metric) : Option Rat :=
  match f with
  | Metric.value => r.value
  | Metric.num_rows => r.num_rows
  | Metric.num_devices => r.num_devices

/-- A freshly inserted row: all columns default except the key and the one
metric column named by the INSERT. -/
def emptyRow (loc : String) (ew : Int) : QuidelRow :=
  { location := loc, epiweek := ew, value := none, num_rows := none, num_devices := none }

/-- The `INSERT ... ON DUPLICATE KEY UPDATE` statement: if a row with the
(location, epiweek) key exists, overwrite only the selected metric column of
that row; otherwise append a new row carrying only that column. -/
def upsert (db : DB) (loc : String) (ew : Int) (f : Metric) (v : Rat) : DB :=
  match db with
  | [] => [setMetric (emptyRow loc ew) f v]
  | r :: rest =>
    if rkey r = (loc, ew) then setMetric r f v :: rest
    else r :: upsert rest loc ew f v

/-- One executed upsert statement: the `(location, ew, v, v)` tuple bound
into the SQL template chosen by `update_field`. -/
structure UpsertOp where
  location : String
  epiweek : Int
  field : Metric
  v : Rat
  deriving DecidableEq, Repr

def okey (op : UpsertOp) : RKey := (op.location, op.epiweek)

def applyOp (db : DB) (op : UpsertOp) : DB :=
  upsert db op.location op.epiweek op.field op.v

def applyOps : DB → List UpsertOp → DB
  | db, [] => db
  | db, op :: rest => applyOps (applyOp db op) rest

/-- First-match lookup of a stored row by its (location, epiweek) key. -/
def dbLookup : DB → RKey → Option QuidelRow
  | [], _ => none
  | r :: rest, k => if rkey r = k then some r else dbLookup rest k

/-- The keys of the stored rows, in storage order. -/
def dbKeys (db : DB) : List RKey := db.map rkey

/-- The given metric column of the stored row at a key (`none` when the row
is absent or the column was never written). -/
def rowFields : Option QuidelRow → Metric → Option Rat
  | none, _ => none
  | some r, f => getMetric r f

def rowFieldAt (db : DB) (k : RKey) (g : Metric) : Option Rat :=
  rowFields (dbLookup db k) g

/-- The `SELECT max(epiweek) FROM quidel` query. -/
def maxEpiweekOf : DB → Option Int
  | [] => none
  | r :: rest =>
    match maxEpiweekOf rest with
    | none => some r.epiweek
    | some m => some (max r.epiweek m)

/-- Modelled from the spec: epiweek arithmetic (`add_epiweeks` of
`delphi.utils.epiweek`, which is not in the visible source).  An epiweek is
an integer `year * 100 + week`; adding `n` weeks moves along the linear
week count, with years modelled as 52 weeks. -/
def add_epiweeks (ew : Int) (n : Int) : Int :=
  let y := ew / 100
  let w := ew % 100
  let t := y * 52 + (w - 1) + n
  (t / 52) * 100 + (t % 52) + 1

/-- The window resolution of `update_quid_db`: `ew0` is the epoch epiweek
200401 when the table is empty, otherwise the stored maximum minus 4 weeks;
`ew1` is the current calendar week (`yearweek(now(), 6)`); a caller override
replaces the corresponding bound. -/
def resolveWindow (maxEW : Option Int) (currentWeek : Int)
    (first last : Option Int) : Int × Int :=
  let ew0 :=
    match maxEW with
    | none => 200401
    | some m => add_epiweeks m (-4)
  let ew0f := match first with | none => ew0 | some f => f
  let ew1f := match last with | none => currentWeek | some l => l
  (ew0f, ew1f)

/-- A derived series: per location, the epiweek-indexed numeric values
(`qd_ts` in the source). -/
abbrev Series := List (String × List (Int × Rat))

/-- A measurement mapping: per location, per epiweek, the positional tuple
of raw counters (index 3 = row count, index 7 = ratio numerator,
index 8 = unique device count). -/
abbrev Measurements := List (String × List (Int × List Rat))

/-- First-match lookup of a location in a series (`location in qd_ts` /
`qd_ts[location]` in the source). -/
def seriesLookup : Series → String → Option (List (Int × Rat))
  | [], _ => none
  | p :: rest, loc => if p.1 = loc then some p.2 else seriesLookup rest loc

/-- Modelled from the spec: the inclusive optional window restriction of the
SeriesDeriver (`startweek` / `endweek` of `quidel.measurement_to_ts`, not in
the visible source); an absent bound leaves that side open. -/
def inWindow (startweek endweek : Option Int) (ew : Int) : Bool :=
  (match startweek with | none => true | some s => decide (s ≤ ew)) &&
  (match endweek with | none => true | some e => decide (ew ≤ e))

/-- Modelled from the spec: the per-tuple projection of the SeriesDeriver.
For the ratio field (index 7) the result is numerator / unique-device count,
defined as 0 when the denominator is 0; otherwise the raw counter at the
index. -/
def deriveMetric (idx : Nat) (t : List Rat) : Rat :=
  if idx = 7 then
    (if t.getD 8 0 = 0 then 0 else t.getD 7 0 / t.getD 8 0)
  else t.getD idx 0

/-- Modelled from the spec: `quidel.measurement_to_ts` (not in the visible
source): project the measurement mapping to an epiweek-indexed series per
location, keeping only epiweeks inside the optional [startweek, endweek]
bound. -/
def measurement_to_ts (m : Measurements) (idx : Nat)
    (startweek endweek : Option Int) : Series :=
  m.map (fun p =>
    (p.1, (p.2.filter (fun q => inWindow startweek endweek q.1)).map
      (fun q => (q.1, deriveMetric idx q.2))))

/-- The upserts executed by one metric pass: the requested locations in
order, skipping those absent from the series, each contributing its
epiweek-value points. -/
def locOps (f : Metric) (loc : String) (pts : List (Int × Rat)) : List UpsertOp :=
  pts.map (fun p => { location := loc, epiweek := p.1, field := f, v := p.2 })

def passOps (f : Metric) (qd_ts : Series) : List String → List UpsertOp
  | [] => []
  | loc :: rest =>
    (match seriesLookup qd_ts loc with
     | none => []
     | some pts => locOps f loc pts) ++ passOps f qd_ts rest

/-- The per-location missing-value warnings of a pass: locations whose
series contains zero values, with the zero count and the point count. -/
def missingReport (qd_ts : Series) : List String → List (String × Nat × Nat)
  | [] => []
  | loc :: rest =>
    (match seriesLookup qd_ts loc with
     | none => []
     | some pts =>
       let nm := (pts.filter (fun p => decide (p.2 = 0))).length
       if 0 < nm then [(loc, nm, pts.length)] else []) ++ missingReport qd_ts rest

/-- The events a run performs against the outside world, used to state that
short-circuited runs touch nothing. -/
inductive Effect
  | log : String → Effect
  | dbConnect : Effect
  | windowQuery : Int × Int → Effect
  | countQuery : Nat → Effect
  | upsertOp : UpsertOp → Effect
  deriving DecidableEq, Repr

/-- The summary a pass reports: net inserted rows (count after minus count
before), total triples considered, and the missing-value warnings. -/
structure PassReport where
  inserted : Nat
  considered : Nat
  missing : List (String × Nat × Nat)
  deriving DecidableEq, Repr

structure PassResult where
  db : DB
  report : PassReport
  effects : List Effect
  deriving DecidableEq, Repr

/-- One metric pass of `update_quid_db`: resolve and report the window, read
the row count, execute the upserts for the requested locations present in
the series, read the row count again and report the difference. -/
def update_quid_db (db : DB) (qd_ts : Series) (f : Metric)
    (locations : List String) (first last : Option Int)
    (currentWeek : Int) : PassResult :=
  let w := resolveWindow (maxEpiweekOf db) currentWeek first last
  let rows_before := db.length
  let ops := passOps f qd_ts locations
  let db2 := applyOps db ops
  let rows_after := db2.length
  { db := db2
    report :=
      { inserted := rows_after - rows_before
        considered := ops.length
        missing := missingReport qd_ts locations }
    effects := Effect.windowQuery w :: Effect.countQuery rows_before ::
      (ops.map Effect.upsertOp ++ [Effect.countQuery rows_after]) }

/-- The inputs `update` obtains from outside: the stored table, the merged
measurement mapping produced by the aggregation collaborator, the
collaborator's `need_update` flag, and the current calendar week. -/
structure World where
  db : DB
  measurements : Measurements
  need_update : Bool
  currentWeek : Int

structure UpdateResult where
  db : DB
  effects : List Effect
  deriving DecidableEq, Repr

/-- The three derived series of a run and the upserts of its three passes
(`value`, then `num_rows`, then `num_devices`), all bounded by the caller
overrides handed to the SeriesDeriver. -/
def updateOps (m : Measurements) (locations : List String)
    (first last : Option Int) : List UpsertOp :=
  passOps Metric.value (measurement_to_ts m 7 first last) locations ++
  passOps Metric.num_rows (measurement_to_ts m 3 first last) locations ++
  passOps Metric.num_devices (measurement_to_ts m 8 first last) locations

/-- The `update` driver: short-circuit when the collaborator reports no new
data and no force flag is set; otherwise derive the three series, connect,
and run the three metric passes in order. -/
def update (w : World) (locations : List String) (first last : Option Int)
    (force_update load_email : Bool) : UpdateResult :=
  if !w.need_update && !force_update then
    { db := w.db, effects := [Effect.log "Data not updated, nothing needs change."] }
  else
    let qd_ts_values := measurement_to_ts w.measurements 7 first last
    let qd_ts_numrows := measurement_to_ts w.measurements 3 first last
    let qd_ts_numdevices := measurement_to_ts w.measurements 8 first last
    let p1 := update_quid_db w.db qd_ts_values Metric.value locations first last w.currentWeek
    let p2 := update_quid_db p1.db qd_ts_numrows Metric.num_rows locations first last w.currentWeek
    let p3 := update_quid_db p2.db qd_ts_numdevices Metric.num_devices locations first last w.currentWeek
    { db := p3.db
      effects := Effect.dbConnect :: (p1.effects ++ p2.effects ++ p3.effects) }

/-- Modelled from the spec: the fixed set of ten standard health regions
(`Locations.hhs_list` of `delphi.utils.geo.locations`, not in the visible
source). -/
def LOCATIONS : List String :=
  ["hhs1", "hhs2", "hhs3", "hhs4", "hhs5", "hhs6", "hhs7", "hhs8", "hhs9", "hhs10"]

/-- Modelled from the spec: `flu.check_epiweek` of `delphi.utils.epiweek`
(not in the visible source): an override must be a well-formed epiweek, its
week part inside the valid calendar range. -/
def isWellFormedEpiweek (ew : Int) : Bool :=
  decide (1 ≤ ew % 100) && decide (ew % 100 ≤ 53)

/-- The parsed command-line arguments of `main`; `--location` defaults to
`None` when the flag is omitted. -/
structure Args where
  location : Option String
  first : Option Int
  last : Option Int
  force_update : Bool
  skip_email : Bool

def isErr : Except String UpdateResult → Bool
  | Except.error _ => true
  | Except.ok _ => false

/-- The Python `str.lower()` call on the location argument, as a
per-character map. -/
def lowerStr (s : String) : String := String.mk (s.data.map Char.toLower)

/-- The sanity checks `main` performs on the overrides before anything else:
each present override well-formed, and `first ≤ last` when both are
present. -/
def epiweekChecksPass (args : Args) : Bool :=
  (match args.first with | some f => isWellFormedEpiweek f | none => true) &&
  (match args.last with | some l => isWellFormedEpiweek l | none => true) &&
  (match args.first, args.last with
   | some f, some l => decide (f ≤ l)
   | _, _ => true)

/-- The `main` entry point: validate the overrides (raising before any data
processing), then read the location argument; accessing `.lower()` on an
omitted `--location` raises, the literal `all` selects the full location
set, anything else is split on commas.  An `Except.error` models a raised
exception: no update work is performed. -/
def main (args : Args) (w : World) : Except String UpdateResult :=
  if (match args.first with
      | some f => !(isWellFormedEpiweek f)
      | none => false) then
    Except.error "invalid epiweek"
  else if (match args.last with
      | some l => !(isWellFormedEpiweek l)
      | none => false) then
    Except.error "invalid epiweek"
  else if (match args.first, args.last with
      | some f, some l => decide (f > l)
      | _, _ => false) then
    Except.error "epiweeks in the wrong order"
  else
    match args.location with
    | none => Except.error "AttributeError: NoneType object has no attribute lower"
    | some loc =>
      let locations :=
        if lowerStr loc = "all" then LOCATIONS else (lowerStr loc).splitOn ","
      Except.ok (update w locations args.first args.last args.force_update (!args.skip_email))

/-! Basic facts about rows and single upserts. -/

lemma rkey_setMetric (r : QuidelRow) (f : Metric) (v : Rat) :
    rkey (setMetric r f v) = rkey r := by
  cases f <;> rfl

lemma getMetric_setMetric_same (r : QuidelRow) (f : Metric) (v : Rat) :
    getMetric (setMetric r f v) f = some v := by
  cases f <;> rfl

lemma getMetric_setMetric_other (r : QuidelRow) (f g : Metric) (v : Rat)
    (h : g ≠ f) : getMetric (setMetric r f v) g = getMetric r g := by
  cases f <;> cases g <;> first | exact absurd rfl h | rfl

lemma row_ext (r s : QuidelRow) (hl : r.location = s.location)
    (he : r.epiweek = s.epiweek)
    (hf : ∀ f, getMetric r f = getMetric s f) : r = s := by
  have h1 := hf Metric.value
  have h2 := hf Metric.num_rows
  have h3 := hf Metric.num_devices
  cases r
  cases s
  simp_all [getMetric]

lemma dbLookup_upsert (db : DB) (loc : String) (ew : Int) (f : Metric)
    (v : Rat) (k : RKey) :
    dbLookup (upsert db loc ew f v) k =
      if k = (loc, ew) then
        some (setMetric ((dbLookup db k).getD (emptyRow loc ew)) f v)
      else dbLookup db k := by
  induction db with
  | nil =>
    have hkey : rkey (setMetric (emptyRow loc ew) f v) = (loc, ew) := by
      rw [rkey_setMetric]; rfl
    simp only [upsert, dbLookup]
    by_cases hk : k = (loc, ew)
    · subst hk
      rw [if_pos hkey, if_pos rfl]
      rfl
    · rw [if_neg (by rw [hkey]; exact fun h => hk h.symm), if_neg hk]
  | cons r rest ih =>
    by_cases hr : rkey r = (loc, ew)
    · simp only [upsert, if_pos hr, dbLookup]
      by_cases hk : k = (loc, ew)
      · subst hk
        rw [if_pos (by rw [rkey_setMetric]; exact hr), if_pos rfl, if_pos hr]
        simp
      · rw [if_neg (by rw [rkey_setMetric]; rw [hr]; exact fun h => hk h.symm),
          if_neg hk, if_neg (by rw [hr]; exact fun h => hk h.symm)]
    · simp only [upsert, if_neg hr, dbLookup]
      by_cases hrk : rkey r = k
      · have hk : ¬ k = (loc, ew) := by rw [← hrk]; exact hr
        rw [if_pos hrk, if_neg hk, if_pos hrk]
      · rw [if_neg hrk, if_neg hrk, ih]

lemma dbKeys_upsert (db : DB) (loc : String) (ew : Int) (f : Metric) (v : Rat) :
    dbKeys (upsert db loc ew f v) =
      if (loc, ew) ∈ dbKeys db then dbKeys db else dbKeys db ++ [(loc, ew)] := by
  induction db with
  | nil =>
    have hkey : rkey (setMetric (emptyRow loc ew) f v) = (loc, ew) := by
      rw [rkey_setMetric]; rfl
    simp [upsert, dbKeys, hkey]
  | cons r rest ih =>
    by_cases hr : rkey r = (loc, ew)
    · simp only [upsert, if_pos hr, dbKeys, List.map_cons, rkey_setMetric]
      rw [if_pos (by rw [← hr]; exact List.mem_cons_self _ _), hr]
    · simp only [upsert, if_neg hr, dbKeys, List.map_cons]
      have hmem : ((loc, ew) ∈ rkey r :: List.map rkey rest) ↔
          ((loc, ew) ∈ List.map rkey rest) := by
        simp only [List.mem_cons]
        constructor
        · intro h
          rcases h with h | h
          · exact absurd h.symm hr
          · exact h
        · intro h; exact Or.inr h
      have hih : List.map rkey (upsert rest loc ew f v) =
          if (loc, ew) ∈ List.map rkey rest then List.map rkey rest
          else List.map rkey rest ++ [(loc, ew)] := ih
      by_cases hm : (loc, ew) ∈ List.map rkey rest
      · rw [hih, if_pos hm, if_pos (hmem.mpr hm)]
      · rw [hih, if_neg hm, if_neg (fun h => hm (hmem.mp h))]
        simp

lemma dbLookup_eq_none_of_not_mem (db : DB) (k : RKey)
    (h : k ∉ dbKeys db) : dbLookup db k = none := by
  induction db with
  | nil => rfl
  | cons r rest ih =>
    simp only [dbKeys, List.map_cons, List.mem_cons] at h
    push_neg at h
    simp only [dbLookup]
    rw [if_neg (fun he => h.1 he.symm)]
    exact ih (by intro hm; exact h.2 (by simpa [dbKeys] using hm))

lemma rkey_of_dbLookup (db : DB) (k : RKey) (r : QuidelRow)
    (h : dbLookup db k = some r) : rkey r = k := by
  induction db with
  | nil => simp [dbLookup] at h
  | cons s rest ih =>
    simp only [dbLookup] at h
    by_cases hs : rkey s = k
    · rw [if_pos hs] at h
      cases h
      exact hs
    · rw [if_neg hs] at h
      exact ih h

lemma db_ext (db1 db2 : DB) (hnd : (dbKeys db1).Nodup)
    (hk : dbKeys db1 = dbKeys db2)
    (hl : ∀ k, dbLookup db1 k = dbLookup db2 k) : db1 = db2 := by
  induction db1 generalizing db2 with
  | nil =>
    cases db2 with
    | nil => rfl
    | cons s u => simp [dbKeys] at hk
  | cons r t ih =>
    cases db2 with
    | nil => simp [dbKeys] at hk
    | cons s u =>
      simp only [dbKeys, List.map_cons, List.cons.injEq] at hk
      obtain ⟨hk1, hk2⟩ := hk
      have hr : r = s := by
        have := hl (rkey r)
        simp only [dbLookup, if_pos rfl] at this
        rw [if_pos hk1.symm] at this
        exact Option.some.inj this
      subst hr
      simp only [dbKeys, List.map_cons, List.nodup_cons] at hnd
      congr 1
      refine ih u hnd.2 hk2 ?_
      intro k
      by_cases hkk : rkey r = k
      · subst hkk
        rw [dbLookup_eq_none_of_not_mem t _ (by simpa [dbKeys] using hnd.1),
          dbLookup_eq_none_of_not_mem u _ (by
            rw [show dbKeys u = List.map rkey u from rfl, ← hk2]
            simpa [dbKeys] using hnd.1)]
      · have := hl k
        simp only [dbLookup, if_neg hkk] at this
        exact this

/-! Per-key semantics of a sequence of upserts. -/

/-- Left-biased choice on optional values: the accumulator form of
last-writer-wins. -/
def oor : Option Rat → Option Rat → Option Rat
  | some v, _ => some v
  | none, b => b

lemma oor_none (a : Option Rat) : oor a none = a := by cases a <;> rfl

lemma oor_assoc (a b c : Option Rat) : oor (oor a b) c = oor a (oor b c) := by
  cases a <;> rfl

lemma oor_self_or (a b : Option Rat) : oor a (oor a b) = oor a b := by
  cases a <;> rfl

/-- The row at key `k` after folding a sequence of upserts, starting from
the current row (or no row) at that key. -/
def opsFold (k : RKey) : Option QuidelRow → List UpsertOp → Option QuidelRow
  | o, [] => o
  | o, op :: rest =>
    opsFold k
      (if okey op = k then
        some (setMetric (o.getD (emptyRow k.1 k.2)) op.field op.v)
      else o) rest

/-- The value the last upsert in the sequence hitting key `k` and metric
`f` writes, if any. -/
def lastSet (k : RKey) (f : Metric) : List UpsertOp → Option Rat
  | [] => none
  | op :: rest =>
    oor (lastSet k f rest)
      (if okey op = k ∧ op.field = f then some op.v else none)

lemma dbLookup_applyOps (db : DB) (ops : List UpsertOp) (k : RKey) :
    dbLookup (applyOps db ops) k = opsFold k (dbLookup db k) ops := by
  induction ops generalizing db with
  | nil => rfl
  | cons op rest ih =>
    show dbLookup (applyOps (applyOp db op) rest) k = _
    rw [ih]
    have hup := dbLookup_upsert db op.location op.epiweek op.field op.v k
    by_cases hk : okey op = k
    · have hk2 : (op.location, op.epiweek) = k := hk
      subst hk2
      simp only [opsFold, if_pos rfl]
      rw [show dbLookup (applyOp db op) (op.location, op.epiweek) =
          dbLookup (upsert db op.location op.epiweek op.field op.v)
            (op.location, op.epiweek) from rfl, hup, if_pos rfl, if_pos hk]
    · simp only [opsFold, if_neg hk]
      rw [show dbLookup (applyOp db op) k =
          dbLookup (upsert db op.location op.epiweek op.field op.v) k from rfl,
        hup, if_neg (fun h => hk h.symm)]

lemma opsFold_no_match (k : RKey) (o : Option QuidelRow) (ops : List UpsertOp)
    (h : ∀ op ∈ ops, okey op ≠ k) : opsFold k o ops = o := by
  induction ops generalizing o with
  | nil => rfl
  | cons op rest ih =>
    simp only [opsFold, if_neg (h op (List.mem_cons_self _ _))]
    exact ih o (fun op2 h2 => h op2 (List.mem_cons_of_mem _ h2))

lemma lastSet_no_match (k : RKey) (f : Metric) (ops : List UpsertOp)
    (h : ∀ op ∈ ops, okey op ≠ k) : lastSet k f ops = none := by
  induction ops with
  | nil => rfl
  | cons op rest ih =>
    simp only [lastSet]
    rw [ih (fun op2 h2 => h op2 (List.mem_cons_of_mem _ h2)),
      if_neg (fun hc => h op (List.mem_cons_self _ _) hc.1)]
    rfl

lemma getMetric_emptyRow (loc : String) (ew : Int) (f : Metric) :
    getMetric (emptyRow loc ew) f = none := by
  cases f <;> rfl

lemma opsFold_match (k : RKey) (ops : List UpsertOp) (o : Option QuidelRow)
    (hmatch : ∃ op ∈ ops, okey op = k)
    (ho : ∀ r, o = some r → rkey r = k) :
    ∃ s, opsFold k o ops = some s ∧ rkey s = k ∧
      ∀ f, getMetric s f = oor (lastSet k f ops) (rowFields o f) := by
  induction ops generalizing o with
  | nil => simp at hmatch
  | cons op rest ih =>
    by_cases hop : okey op = k
    · have hbase_key : rkey (o.getD (emptyRow k.1 k.2)) = k := by
        cases o with
        | none => rfl
        | some r => exact ho r rfl
      have hbase_fields : ∀ f, getMetric (o.getD (emptyRow k.1 k.2)) f = rowFields o f := by
        intro f
        cases o with
        | none => exact getMetric_emptyRow _ _ _
        | some r => rfl
      have hs1key : rkey (setMetric (o.getD (emptyRow k.1 k.2)) op.field op.v) = k := by
        rw [rkey_setMetric]; exact hbase_key
      have hs1fields : ∀ f,
          getMetric (setMetric (o.getD (emptyRow k.1 k.2)) op.field op.v) f =
            oor (if okey op = k ∧ op.field = f then some op.v else none)
              (rowFields o f) := by
        intro f
        by_cases hf : f = op.field
        · subst hf
          rw [getMetric_setMetric_same, if_pos ⟨hop, rfl⟩]
          rfl
        · rw [getMetric_setMetric_other _ _ _ _ hf,
            if_neg (fun hc => hf hc.2.symm), hbase_fields]
          rfl
      by_cases hrest : ∃ op2 ∈ rest, okey op2 = k
      · obtain ⟨s, hs, hskey, hsf⟩ := ih
          (some (setMetric (o.getD (emptyRow k.1 k.2)) op.field op.v)) hrest
          (fun r hr => by rw [← Option.some.inj hr]; exact hs1key)
        refine ⟨s, ?_, hskey, ?_⟩
        · simp only [opsFold, if_pos hop]
          exact hs
        · intro f
          rw [hsf f]
          show oor (lastSet k f rest)
              (getMetric (setMetric (o.getD (emptyRow k.1 k.2)) op.field op.v) f) = _
          rw [hs1fields f, lastSet, ← oor_assoc]
      · have hnm : ∀ op2 ∈ rest, okey op2 ≠ k := by
          intro op2 h2 hc
          exact hrest ⟨op2, h2, hc⟩
        refine ⟨setMetric (o.getD (emptyRow k.1 k.2)) op.field op.v, ?_, hs1key, ?_⟩
        · simp only [opsFold, if_pos hop]
          exact opsFold_no_match k _ rest hnm
        · intro f
          rw [hs1fields f]
          simp only [lastSet, lastSet_no_match k f rest hnm]
          rfl
    · have hrest : ∃ op2 ∈ rest, okey op2 = k := by
        rcases hmatch with ⟨op2, h2, he⟩
        rcases List.mem_cons.mp h2 with h3 | h3
        · subst h3; exact absurd he hop
        · exact ⟨op2, h3, he⟩
      obtain ⟨s, hs, hskey, hsf⟩ := ih o hrest ho
      refine ⟨s, ?_, hskey, ?_⟩
      · simp only [opsFold, if_neg hop]
        exact hs
      · intro f
        rw [hsf f]
        simp only [lastSet, if_neg (fun hc : okey op = k ∧ op.field = f => hop hc.1)]
        rw [oor_none]

lemma opsFold_idem (k : RKey) (ops : List UpsertOp) (o : Option QuidelRow)
    (ho : ∀ r, o = some r → rkey r = k) :
    opsFold k (opsFold k o ops) ops = opsFold k o ops := by
  by_cases hm : ∃ op ∈ ops, okey op = k
  · obtain ⟨s, hs, hskey, hsf⟩ := opsFold_match k ops o hm ho
    rw [hs]
    obtain ⟨s2, hs2, hs2key, hs2f⟩ := opsFold_match k ops (some s) hm
      (fun r hr => by rw [← Option.some.inj hr]; exact hskey)
    rw [hs2]
    congr 1
    apply row_ext
    · have : (rkey s2).1 = (rkey s).1 := by rw [hs2key, hskey]
      exact this
    · have : (rkey s2).2 = (rkey s).2 := by rw [hs2key, hskey]
      exact this
    · intro f
      rw [hs2f f]
      show oor (lastSet k f ops) (getMetric s f) = getMetric s f
      rw [hsf f, oor_self_or]
  · have hnm : ∀ op ∈ ops, okey op ≠ k := by
      intro op h2 hc
      exact hm ⟨op, h2, hc⟩
    rw [opsFold_no_match k o ops hnm, opsFold_no_match k o ops hnm]

/-! Key-set facts about sequences of upserts. -/

lemma nodup_dbKeys_upsert (db : DB) (loc : String) (ew : Int) (f : Metric)
    (v : Rat) (h : (dbKeys db).Nodup) : (dbKeys (upsert db loc ew f v)).Nodup := by
  rw [dbKeys_upsert]
  by_cases hm : (loc, ew) ∈ dbKeys db
  · rw [if_pos hm]; exact h
  · rw [if_neg hm]
    rw [List.nodup_append]
    exact ⟨h, List.nodup_singleton _, by
      intro a ha hb
      rw [List.mem_singleton] at hb
      subst hb
      exact hm ha⟩

lemma nodup_dbKeys_applyOps (db : DB) (ops : List UpsertOp)
    (h : (dbKeys db).Nodup) : (dbKeys (applyOps db ops)).Nodup := by
  induction ops generalizing db with
  | nil => exact h
  | cons op rest ih =>
    exact ih _ (nodup_dbKeys_upsert db op.location op.epiweek op.field op.v h)

lemma mem_dbKeys_upsert (db : DB) (loc : String) (ew : Int) (f : Metric)
    (v : Rat) (k : RKey) (h : k ∈ dbKeys db) : k ∈ dbKeys (upsert db loc ew f v) := by
  rw [dbKeys_upsert]
  by_cases hm : (loc, ew) ∈ dbKeys db
  · rw [if_pos hm]; exact h
  · rw [if_neg hm]; exact List.mem_append_left _ h

lemma self_mem_dbKeys_upsert (db : DB) (loc : String) (ew : Int) (f : Metric)
    (v : Rat) : (loc, ew) ∈ dbKeys (upsert db loc ew f v) := by
  rw [dbKeys_upsert]
  by_cases hm : (loc, ew) ∈ dbKeys db
  · rw [if_pos hm]; exact hm
  · rw [if_neg hm]; exact List.mem_append_right _ (List.mem_singleton_self _)

lemma mem_dbKeys_applyOps_of_mem (db : DB) (ops : List UpsertOp) (k : RKey)
    (h : k ∈ dbKeys db) : k ∈ dbKeys (applyOps db ops) := by
  induction ops generalizing db with
  | nil => exact h
  | cons op rest ih =>
    exact ih _ (mem_dbKeys_upsert db op.location op.epiweek op.field op.v k h)

lemma okey_mem_dbKeys_applyOps (db : DB) (ops : List UpsertOp) (op : UpsertOp)
    (h : op ∈ ops) : okey op ∈ dbKeys (applyOps db ops) := by
  induction ops generalizing db with
  | nil => simp at h
  | cons op2 rest ih =>
    rcases List.mem_cons.mp h with h2 | h2
    · subst h2
      exact mem_dbKeys_applyOps_of_mem _ rest _
        (self_mem_dbKeys_upsert db op.location op.epiweek op.field op.v)
    · exact ih _ h2

lemma dbKeys_applyOps_of_covered (db : DB) (ops : List UpsertOp)
    (h : ∀ op ∈ ops, okey op ∈ dbKeys db) :
    dbKeys (applyOps db ops) = dbKeys db := by
  induction ops generalizing db with
  | nil => rfl
  | cons op rest ih =>
    have hc : (op.location, op.epiweek) ∈ dbKeys db := h op (List.mem_cons_self _ _)
    have hk : dbKeys (applyOp db op) = dbKeys db := by
      show dbKeys (upsert db op.location op.epiweek op.field op.v) = dbKeys db
      rw [dbKeys_upsert, if_pos hc]
    show dbKeys (applyOps (applyOp db op) rest) = dbKeys db
    rw [ih (applyOp db op) (by
      intro op2 h2
      rw [hk]
      exact h op2 (List.mem_cons_of_mem _ h2)), hk]

lemma dbKeys_applyOps_append (db : DB) (ops : List UpsertOp) :
    ∃ newKeys, dbKeys (applyOps db ops) = dbKeys db ++ newKeys ∧
      ∀ k ∈ newKeys, k ∉ dbKeys db := by
  induction ops generalizing db with
  | nil => exact ⟨[], by show dbKeys db = dbKeys db ++ []; simp, by simp⟩
  | cons op rest ih =>
    show ∃ newKeys, dbKeys (applyOps (applyOp db op) rest) = _ ∧ _
    by_cases hm : (op.location, op.epiweek) ∈ dbKeys db
    · have hk : dbKeys (applyOp db op) = dbKeys db := by
        show dbKeys (upsert db op.location op.epiweek op.field op.v) = dbKeys db
        rw [dbKeys_upsert, if_pos hm]
      obtain ⟨newKeys, h1, h2⟩ := ih (applyOp db op)
      rw [hk] at h1 h2
      exact ⟨newKeys, h1, h2⟩
    · have hk : dbKeys (applyOp db op) = dbKeys db ++ [(op.location, op.epiweek)] := by
        show dbKeys (upsert db op.location op.epiweek op.field op.v) = _
        rw [dbKeys_upsert, if_neg hm]
      obtain ⟨newKeys, h1, h2⟩ := ih (applyOp db op)
      rw [hk] at h1 h2
      refine ⟨(op.location, op.epiweek) :: newKeys, ?_, ?_⟩
      · rw [h1, List.append_assoc]
        rfl
      · intro k hkmem
        rcases List.mem_cons.mp hkmem with h3 | h3
        · subst h3; exact hm
        · intro hc
          exact h2 k h3 (List.mem_append_left _ hc)

lemma applyOps_append (db : DB) (ops1 ops2 : List UpsertOp) :
    applyOps db (ops1 ++ ops2) = applyOps (applyOps db ops1) ops2 := by
  induction ops1 generalizing db with
  | nil => rfl
  | cons op rest ih =>
    show applyOps (applyOp db op) (rest ++ ops2) = _
    exact ih (applyOp db op)

/-- Idempotence of replaying the same sequence of upserts, given the
uniqueness invariant on the starting table. -/
lemma applyOps_idem (db : DB) (ops : List UpsertOp)
    (h : (dbKeys db).Nodup) :
    applyOps (applyOps db ops) ops = applyOps db ops := by
  apply db_ext
  · exact nodup_dbKeys_applyOps _ ops (nodup_dbKeys_applyOps db ops h)
  · exact dbKeys_applyOps_of_covered _ ops
      (fun op hop => okey_mem_dbKeys_applyOps db ops op hop)
  · intro k
    rw [dbLookup_applyOps, dbLookup_applyOps]
    exact opsFold_idem k ops (dbLookup db k) (fun r hr => rkey_of_dbLookup db k r hr)

/-! Facts about the pass upsert lists and the derived series. -/

lemma passOps_field (f : Metric) (qd_ts : Series) (locs : List String) :
    ∀ op ∈ passOps f qd_ts locs, op.field = f := by
  induction locs with
  | nil => intro op h; simp [passOps] at h
  | cons loc rest ih =>
    intro op h
    simp only [passOps] at h
    rcases List.mem_append.mp h with h1 | h1
    · cases hlk : seriesLookup qd_ts loc with
      | none => rw [hlk] at h1; simp at h1
      | some pts =>
        rw [hlk] at h1
        simp only [locOps, List.mem_map] at h1
        obtain ⟨q, _, hq⟩ := h1
        rw [← hq]
    · exact ih op h1

lemma passOps_location_mem (f : Metric) (qd_ts : Series) (locs : List String)
    (op : UpsertOp) (h : op ∈ passOps f qd_ts locs) :
    op.location ∈ locs ∧ ∃ pts, seriesLookup qd_ts op.location = some pts ∧
      (op.epiweek, op.v) ∈ pts := by
  induction locs with
  | nil => simp [passOps] at h
  | cons loc rest ih =>
    simp only [passOps] at h
    rcases List.mem_append.mp h with h1 | h1
    · cases hlk : seriesLookup qd_ts loc with
      | none => rw [hlk] at h1; simp at h1
      | some pts =>
        rw [hlk] at h1
        simp only [locOps, List.mem_map] at h1
        obtain ⟨q, hqmem, hq⟩ := h1
        rw [← hq]
        exact ⟨List.mem_cons_self _ _, pts, hlk, by simpa using hqmem⟩
    · obtain ⟨h2, h3⟩ := ih h1
      exact ⟨List.mem_cons_of_mem _ h2, h3⟩

lemma passOps_exists_of_mem (f : Metric) (qd_ts : Series) (locs : List String)
    (loc : String) (pts : List (Int × Rat)) (hloc : loc ∈ locs)
    (hlk : seriesLookup qd_ts loc = some pts) (hne : pts ≠ []) :
    ∃ op ∈ passOps f qd_ts locs, op.location = loc := by
  induction locs with
  | nil => simp at hloc
  | cons a rest ih =>
    rcases List.mem_cons.mp hloc with h1 | h1
    · subst h1
      obtain ⟨q, hq⟩ := List.exists_mem_of_ne_nil pts hne
      refine ⟨{ location := loc, epiweek := q.1, field := f, v := q.2 }, ?_, rfl⟩
      simp only [passOps, hlk]
      exact List.mem_append_left _ (List.mem_map_of_mem _ hq)
    · obtain ⟨op, hop, hop2⟩ := ih h1
      refine ⟨op, ?_, hop2⟩
      simp only [passOps]
      exact List.mem_append_right _ hop

lemma mem_fst_of_seriesLookup (qd_ts : Series) (loc : String)
    (pts : List (Int × Rat)) (h : seriesLookup qd_ts loc = some pts) :
    loc ∈ qd_ts.map Prod.fst := by
  induction qd_ts with
  | nil => simp [seriesLookup] at h
  | cons p rest ih =>
    simp only [seriesLookup] at h
    by_cases hp : p.1 = loc
    · simp [hp]
    · rw [if_neg hp] at h
      exact List.mem_cons_of_mem _ (ih h)

lemma seriesLookup_of_mem_fst (qd_ts : Series) (loc : String)
    (h : loc ∈ qd_ts.map Prod.fst) :
    ∃ pts, seriesLookup qd_ts loc = some pts := by
  induction qd_ts with
  | nil => simp at h
  | cons p rest ih =>
    by_cases hp : p.1 = loc
    · exact ⟨p.2, by simp [seriesLookup, hp]⟩
    · simp only [List.map_cons, List.mem_cons] at h
      rcases h with h1 | h1
      · exact absurd h1.symm hp
      · obtain ⟨pts, hpts⟩ := ih h1
        exact ⟨pts, by simp [seriesLookup, hp, hpts]⟩

lemma mem_of_seriesLookup (qd_ts : Series) (loc : String)
    (pts : List (Int × Rat)) (h : seriesLookup qd_ts loc = some pts) :
    (loc, pts) ∈ qd_ts := by
  induction qd_ts with
  | nil => simp [seriesLookup] at h
  | cons p rest ih =>
    simp only [seriesLookup] at h
    by_cases hp : p.1 = loc
    · rw [if_pos hp] at h
      have hpts : p.2 = pts := Option.some.inj h
      have : p = (loc, pts) := by
        cases p
        subst hp
        subst hpts
        rfl
      rw [← this]
      exact List.mem_cons_self _ _
    · rw [if_neg hp] at h
      exact List.mem_cons_of_mem _ (ih h)

lemma measurement_to_ts_window (m : Measurements) (idx : Nat)
    (startweek endweek : Option Int) (loc : String) (pts : List (Int × Rat))
    (h : seriesLookup (measurement_to_ts m idx startweek endweek) loc = some pts) :
    ∀ q ∈ pts, inWindow startweek endweek q.1 = true := by
  induction m with
  | nil => simp [measurement_to_ts, seriesLookup] at h
  | cons p rest ih =>
    simp only [measurement_to_ts, List.map_cons, seriesLookup] at h
    by_cases hp : p.1 = loc
    · rw [if_pos hp] at h
      intro q hq
      rw [← Option.some.inj h] at hq
      simp only [List.mem_map] at hq
      obtain ⟨q2, hq2, hqeq⟩ := hq
      rw [List.mem_filter] at hq2
      rw [← hqeq]
      exact hq2.2
    · rw [if_neg hp] at h
      exact ih h

lemma inWindow_bounds (startweek endweek : Option Int) (e : Int)
    (h : inWindow startweek endweek e = true) :
    (∀ s, startweek = some s → s ≤ e) ∧ (∀ l, endweek = some l → e ≤ l) := by
  cases startweek <;> cases endweek <;>
    simp only [inWindow, Bool.and_eq_true, decide_eq_true_eq] at h <;>
    constructor <;> intro x hx <;> cases hx <;> tauto

/-! Characterizations of a pass and of the full run. -/

lemma update_quid_db_db (db : DB) (qd_ts : Series) (f : Metric)
    (locations : List String) (first last : Option Int) (currentWeek : Int) :
    (update_quid_db db qd_ts f locations first last currentWeek).db =
      applyOps db (passOps f qd_ts locations) := rfl

lemma update_db (w : World) (locations : List String) (first last : Option Int)
    (force_update load_email : Bool) :
    (update w locations first last force_update load_email).db =
      if !w.need_update && !force_update then w.db
      else applyOps w.db (updateOps w.measurements locations first last) := by
  by_cases hc : (!w.need_update && !force_update) = true
  · rw [if_pos hc]
    unfold update
    rw [if_pos hc]
  · rw [if_neg hc]
    unfold update
    rw [if_neg hc]
    show applyOps (applyOps (applyOps w.db _) _) _ = _
    rw [updateOps, applyOps_append, applyOps_append]

lemma length_applyOps (db : DB) (ops : List UpsertOp) :
    (applyOps db ops).length - db.length =
      ((dbKeys (applyOps db ops)).filter (fun k => decide (k ∉ dbKeys db))).length := by
  obtain ⟨newKeys, hkeys, hnew⟩ := dbKeys_applyOps_append db ops
  have hlen : (applyOps db ops).length = db.length + newKeys.length := by
    have := congrArg List.length hkeys
    simpa [dbKeys] using this
  rw [hkeys, List.filter_append]
  have h1 : (dbKeys db).filter (fun k => decide (k ∉ dbKeys db)) = [] := by
    rw [List.filter_eq_nil_iff]
    intro a ha
    simp [ha]
  have h2 : newKeys.filter (fun k => decide (k ∉ dbKeys db)) = newKeys := by
    rw [List.filter_eq_self]
    intro a ha
    simpa using hnew a ha
  rw [h1, h2, hlen]
  simp

lemma rowFields_opsFold_other (k : RKey) (o : Option QuidelRow) (g : Metric)
    (ops : List UpsertOp) (h : ∀ op ∈ ops, op.field ≠ g) :
    rowFields (opsFold k o ops) g = rowFields o g := by
  induction ops generalizing o with
  | nil => rfl
  | cons op rest ih =>
    simp only [opsFold]
    by_cases hop : okey op = k
    · rw [if_pos hop, ih _ (fun op2 h2 => h op2 (List.mem_cons_of_mem _ h2))]
      show getMetric (setMetric _ op.field op.v) g = _
      rw [getMetric_setMetric_other _ _ _ _
        (fun hc => h op (List.mem_cons_self _ _) hc.symm)]
      cases o with
      | none => exact getMetric_emptyRow _ _ _
      | some r => rfl
    · rw [if_neg hop]
      exact ih o (fun op2 h2 => h op2 (List.mem_cons_of_mem _ h2))

/-! Claim theorems. -/

/-- C1: running the full reconciliation (all three metric passes) twice over
the same input series, window, and location set produces identical stored
contents after the second run as after the first run, given the
at-most-one-row-per-key invariant on the starting table. -/
theorem update_twice_idempotent (db : DB) (m : Measurements) (nu : Bool)
    (cw : Int) (locs : List String) (first last : Option Int)
    (force_update load_email : Bool) (h : (dbKeys db).Nodup) :
    (update ⟨(update ⟨db, m, nu, cw⟩ locs first last force_update load_email).db, m, nu, cw⟩
        locs first last force_update load_email).db =
      (update ⟨db, m, nu, cw⟩ locs first last force_update load_email).db := by
  simp only [update_db]
  by_cases hc : (!nu && !force_update) = true
  · simp [hc]
  · simp only [hc]
    simp only [Bool.false_eq_true, if_false]
    exact applyOps_idem db (updateOps m locs first last) h

def mW1 : Measurements := [("hhs1", [(200510, [0, 0, 0, 6, 0, 0, 0, 12, 3])])]

theorem update_twice_idempotent_witness :
    (dbKeys ([] : DB)).Nodup ∧
    (update ⟨(update ⟨[], mW1, true, 202040⟩ ["hhs1"] none none false true).db, mW1, true, 202040⟩
        ["hhs1"] none none false true).db =
      (update ⟨[], mW1, true, 202040⟩ ["hhs1"] none none false true).db :=
  ⟨List.nodup_nil,
   update_twice_idempotent [] mW1 true 202040 ["hhs1"] none none false true List.nodup_nil⟩

/-- C2: an upsert pass targeting one metric column changes only that column:
for every key, every other metric column is unchanged; rows at keys the pass
never writes are untouched; and the at-most-one-row-per-(location, epiweek)
invariant is preserved. -/
theorem pass_column_isolation (db : DB) (qd_ts : Series) (f : Metric)
    (locs : List String) (first last : Option Int) (cw : Int)
    (h : (dbKeys db).Nodup) :
    (∀ k g, g ≠ f →
        rowFieldAt (update_quid_db db qd_ts f locs first last cw).db k g =
          rowFieldAt db k g) ∧
    (∀ k, (∀ op ∈ passOps f qd_ts locs, okey op ≠ k) →
        dbLookup (update_quid_db db qd_ts f locs first last cw).db k =
          dbLookup db k) ∧
    (dbKeys (update_quid_db db qd_ts f locs first last cw).db).Nodup := by
  refine ⟨?_, ?_, ?_⟩
  · intro k g hg
    show rowFields (dbLookup (applyOps db (passOps f qd_ts locs)) k) g =
      rowFields (dbLookup db k) g
    rw [dbLookup_applyOps]
    refine rowFields_opsFold_other k _ g _ ?_
    intro op hop
    rw [passOps_field f qd_ts locs op hop]
    exact Ne.symm hg
  · intro k hk
    show dbLookup (applyOps db (passOps f qd_ts locs)) k = dbLookup db k
    rw [dbLookup_applyOps]
    exact opsFold_no_match k _ _ hk
  · exact nodup_dbKeys_applyOps db _ h

def dbW2 : DB :=
  [{ location := "hhs1", epiweek := 200510, value := some 1,
     num_rows := some 2, num_devices := some 3 }]

def tsW2 : Series := [("hhs1", [(200510, (9 : Rat))])]

theorem pass_column_isolation_witness :
    rowFieldAt (update_quid_db dbW2 tsW2 Metric.num_rows ["hhs1"] none none 202040).db
        ("hhs1", 200510) Metric.value = rowFieldAt dbW2 ("hhs1", 200510) Metric.value ∧
    dbLookup (update_quid_db dbW2 tsW2 Metric.num_rows ["hhs1"] none none 202040).db
        ("hhs2", 200510) = dbLookup dbW2 ("hhs2", 200510) ∧
    (dbKeys (update_quid_db dbW2 tsW2 Metric.num_rows ["hhs1"] none none 202040).db).Nodup := by
  have h := pass_column_isolation dbW2 tsW2 Metric.num_rows ["hhs1"] none none 202040 (by decide)
  exact ⟨h.1 _ _ (by decide), h.2.1 _ (by decide), h.2.2⟩

/-- C4: when both overrides are supplied the resolved window is exactly
[first, last], whatever the stored maximum epiweek and the current calendar
week are; each single override replaces its computed bound. -/
theorem resolveWindow_override_precedence (maxEW : Option Int) (cw f l : Int) :
    resolveWindow maxEW cw (some f) (some l) = (f, l) ∧
    (resolveWindow maxEW cw (some f) none).1 = f ∧
    (resolveWindow maxEW cw none (some l)).2 = l := by
  cases maxEW <;> exact ⟨rfl, rfl, rfl⟩

/-- C5: without a first override, the lower bound is the epoch epiweek
200401 when the store is empty (maximum epiweek null), and otherwise the
stored maximum minus 4 epiweeks. -/
theorem resolveWindow_default_lower (cw : Int) (lastO : Option Int) (db : DB) :
    (db = [] → maxEpiweekOf db = none) ∧
    (resolveWindow none cw none lastO).1 = 200401 ∧
    (∀ m, (resolveWindow (some m) cw none lastO).1 = add_epiweeks m (-4)) := by
  refine ⟨fun h => by rw [h]; rfl, ?_, fun m => ?_⟩ <;> cases lastO <;> rfl

theorem resolveWindow_default_lower_witness :
    maxEpiweekOf ([] : DB) = none ∧
    (resolveWindow none 202040 none none).1 = 200401 ∧
    (resolveWindow (some 200510) 202040 none none).1 = add_epiweeks 200510 (-4) ∧
    add_epiweeks 200510 (-4) = 200506 := by
  have h := resolveWindow_default_lower 202040 none []
  exact ⟨h.1 rfl, h.2.1, h.2.2 200510, by decide⟩

/-- C7: when the collaborator reports no new data and force-update is not
set, the run only logs and returns: the store is unchanged and the effect
trace holds nothing but the log line (no connection, no window query, no
row count, no upsert). -/
theorem no_update_short_circuit (db : DB) (m : Measurements) (cw : Int)
    (locs : List String) (first last : Option Int) (load_email : Bool) :
    update ⟨db, m, false, cw⟩ locs first last false load_email =
      { db := db, effects := [Effect.log "Data not updated, nothing needs change."] } ∧
    ((update ⟨db, m, false, cw⟩ locs first last false load_email).effects.all
      (fun e => match e with | Effect.log _ => true | _ => false)) = true :=
  ⟨rfl, rfl⟩

def dbW9 : DB :=
  [{ location := "hhs1", epiweek := 200501, value := some 1, num_rows := none, num_devices := none },
   { location := "hhs1", epiweek := 200502, value := some 1, num_rows := none, num_devices := none },
   { location := "hhs1", epiweek := 200503, value := some 1, num_rows := none, num_devices := none }]

def tsW9 : Series :=
  [("hhs1",
    [(200501, (1 : Rat)), (200502, 2), (200503, 3), (200504, 4),
     (200505, 5), (200506, 6), (200507, 7), (200508, 8)])]

/-- C9: a pass reports as inserted exactly the growth of the stored row
count, which equals the number of new (location, epiweek) keys it created,
and reports as considered exactly the number of triples it processed; on
the spec example (3 existing keys, 8 triples of which 5 are new) it reports
5 inserted out of 8 considered. -/
theorem pass_report_counts (db : DB) (qd_ts : Series) (f : Metric)
    (locs : List String) (first last : Option Int) (cw : Int) :
    (update_quid_db db qd_ts f locs first last cw).report.inserted =
        (update_quid_db db qd_ts f locs first last cw).db.length - db.length ∧
    (update_quid_db db qd_ts f locs first last cw).db.length - db.length =
        ((dbKeys (update_quid_db db qd_ts f locs first last cw).db).filter
          (fun k => decide (k ∉ dbKeys db))).length ∧
    (update_quid_db db qd_ts f locs first last cw).report.considered =
        (passOps f qd_ts locs).length ∧
    (update_quid_db dbW9 tsW9 Metric.value ["hhs1"] none none 202040).report.inserted = 5 ∧
    (update_quid_db dbW9 tsW9 Metric.value ["hhs1"] none none 202040).report.considered = 8 := by
  refine ⟨rfl, ?_, rfl, by decide, by decide⟩
  exact length_applyOps db (passOps f qd_ts locs)

def mW3 : Measurements := [("hhs1", [(200352, [0, 0, 0, 5, 0, 0, 0, 10, 2])])]

/-- C3 counterexample: with no overrides and an empty store the resolved
window is [200401, current week], yet the value pass still writes its triple
at epiweek 200352 — the computed window is only reported, it does not bound
the writes. -/
theorem resolved_window_not_enforced :
    ¬(∀ op ∈ passOps Metric.value (measurement_to_ts mW3 7 none none) ["hhs1"],
        (resolveWindow (maxEpiweekOf ([] : DB)) 202040 none none).1 ≤ op.epiweek ∧
        op.epiweek ≤ (resolveWindow (maxEpiweekOf ([] : DB)) 202040 none none).2) := by
  decide

/-- C3 amended: every triple a pass writes has its epiweek inside the
caller-supplied override bounds whenever those are present (with both
overrides present this is exactly the resolved window); the computed
default window is only reported, and rows already in storage are never
deleted — every key present before the run is present after it. -/
theorem pass_writes_bounded_by_overrides (db : DB) (m : Measurements)
    (nu : Bool) (cw : Int) (locs : List String) (first last : Option Int)
    (force_update load_email : Bool) :
    (∀ op ∈ updateOps m locs first last,
        (∀ f0, first = some f0 → f0 ≤ op.epiweek) ∧
        (∀ l0, last = some l0 → op.epiweek ≤ l0)) ∧
    (∀ k ∈ dbKeys db,
        k ∈ dbKeys (update ⟨db, m, nu, cw⟩ locs first last force_update load_email).db) := by
  constructor
  · intro op hop
    have key : ∀ idx g, op ∈ passOps g (measurement_to_ts m idx first last) locs →
        (∀ f0, first = some f0 → f0 ≤ op.epiweek) ∧
        (∀ l0, last = some l0 → op.epiweek ≤ l0) := by
      intro idx g hmem
      obtain ⟨-, pts, hlk, hpt⟩ := passOps_location_mem g _ locs op hmem
      have hw := measurement_to_ts_window m idx first last op.location pts hlk
        (op.epiweek, op.v) hpt
      exact inWindow_bounds first last op.epiweek hw
    rcases List.mem_append.mp hop with h1 | h1
    · rcases List.mem_append.mp h1 with h2 | h2
      · exact key 7 Metric.value h2
      · exact key 3 Metric.num_rows h2
    · exact key 8 Metric.num_devices h1
  · intro k hk
    rw [update_db]
    split
    · exact hk
    · exact mem_dbKeys_applyOps_of_mem db _ k hk

def dbW3 : DB :=
  [{ location := "hhs9", epiweek := 200301, value := some 1,
     num_rows := none, num_devices := none }]

theorem pass_writes_bounded_by_overrides_witness :
    ((200501 : Int) ≤ 200510 ∧ (200510 : Int) ≤ 200510) ∧
    ("hhs9", (200301 : Int)) ∈ dbKeys
      (update ⟨dbW3, mW1, true, 202040⟩ ["hhs1"] (some 200501) (some 200510) false true).db := by
  have h := pass_writes_bounded_by_overrides dbW3 mW1 true 202040 ["hhs1"]
    (some 200501) (some 200510) false true
  have hop : ({ location := "hhs1", epiweek := 200510, field := Metric.num_rows, v := 6 } : UpsertOp) ∈
      updateOps mW1 ["hhs1"] (some 200501) (some 200510) := by decide
  have h1 := h.1 _ hop
  exact ⟨⟨h1.1 200501 rfl, h1.2 200510 rfl⟩, h.2 _ (by decide)⟩

/-- C6: malformed or wrongly ordered overrides are rejected: `main` raises
(returns an error, producing no update result) before any data processing
or storage call. -/
theorem main_rejects_bad_overrides (args : Args) (w : World)
    (h : (∃ f, args.first = some f ∧ isWellFormedEpiweek f = false) ∨
         (∃ l, args.last = some l ∧ isWellFormedEpiweek l = false) ∨
         (∃ f l, args.first = some f ∧ args.last = some l ∧ f > l)) :
    isErr (main args w) = true := by
  rcases h with ⟨f, hf, hbad⟩ | ⟨l, hl, hbad⟩ | ⟨f, l, hf, hl, hfl⟩
  · simp [main, hf, hbad, isErr]
  · rcases hfc : args.first with _ | f
    · simp [main, hfc, hl, hbad, isErr]
    · by_cases hwf : isWellFormedEpiweek f = true
      · simp [main, hfc, hl, hbad, hwf, isErr]
      · simp [main, hfc, hwf, isErr]
  · by_cases hwf : isWellFormedEpiweek f = true
    · by_cases hwl : isWellFormedEpiweek l = true
      · simp [main, hf, hl, hwf, hwl, hfl, isErr]
      · simp [main, hf, hl, hwf, hwl, isErr]
    · simp [main, hf, hwf, isErr]

def argsW6 : Args :=
  { location := some "hhs1", first := some 200520, last := some 200510,
    force_update := false, skip_email := false }

theorem main_rejects_bad_overrides_witness :
    isErr (main argsW6 ⟨[], [], true, 202040⟩) = true :=
  main_rejects_bad_overrides argsW6 ⟨[], [], true, 202040⟩
    (Or.inr (Or.inr ⟨200520, 200510, rfl, rfl, by decide⟩))

/-- C8: a pass writes exactly the locations in the intersection of the
requested set and the series key set: a requested location absent from the
series is skipped silently, and a series location that was not requested
produces no write (series entries carry at least one data point: a location
is in the series only because it has data). -/
theorem pass_location_filtering (qd_ts : Series) (f : Metric)
    (locs : List String) (h : ∀ p ∈ qd_ts, p.2 ≠ ([] : List (Int × Rat))) :
    ∀ loc, (∃ op ∈ passOps f qd_ts locs, op.location = loc) ↔
      (loc ∈ locs ∧ loc ∈ qd_ts.map Prod.fst) := by
  intro loc
  constructor
  · rintro ⟨op, hop, rfl⟩
    obtain ⟨h1, pts, hlk, -⟩ := passOps_location_mem f qd_ts locs op hop
    exact ⟨h1, mem_fst_of_seriesLookup qd_ts op.location pts hlk⟩
  · rintro ⟨h1, h2⟩
    obtain ⟨pts, hlk⟩ := seriesLookup_of_mem_fst qd_ts loc h2
    have hne : pts ≠ [] := h (loc, pts) (mem_of_seriesLookup qd_ts loc pts hlk)
    exact passOps_exists_of_mem f qd_ts locs loc pts h1 hlk hne

def tsW8 : Series := [("hhs1", [(200510, (3 : Rat))]), ("hhs3", [(200510, 4)])]

theorem pass_location_filtering_witness :
    ((∃ op ∈ passOps Metric.value tsW8 ["hhs1", "hhs2"], op.location = "hhs1") ↔
      ("hhs1" ∈ ["hhs1", "hhs2"] ∧ "hhs1" ∈ tsW8.map Prod.fst)) ∧
    ¬(∃ op ∈ passOps Metric.value tsW8 ["hhs1", "hhs2"], op.location = "hhs2") ∧
    ¬(∃ op ∈ passOps Metric.value tsW8 ["hhs1", "hhs2"], op.location = "hhs3") := by
  have h := pass_location_filtering tsW8 Metric.value ["hhs1", "hhs2"] (by decide)
  refine ⟨h "hhs1", fun hex => ?_, fun hex => ?_⟩
  · exact absurd ((h "hhs2").mp hex).2 (by decide)
  · exact absurd ((h "hhs3").mp hex).1 (by decide)

lemma epiweekChecks_components (args : Args) (h : epiweekChecksPass args = true) :
    (match args.first with | some f => !(isWellFormedEpiweek f) | none => false) = false ∧
    (match args.last with | some l => !(isWellFormedEpiweek l) | none => false) = false ∧
    (match args.first, args.last with
     | some f, some l => decide (f > l)
     | _, _ => false) = false := by
  unfold epiweekChecksPass at h
  rcases hfirst : args.first with _ | f <;> rcases hlast : args.last with _ | l <;>
    rw [hfirst, hlast] at h
  · exact ⟨rfl, rfl, rfl⟩
  · simp only [Bool.true_and, Bool.and_true] at h
    refine ⟨rfl, ?_, rfl⟩
    show (!isWellFormedEpiweek l) = false
    simp [h]
  · simp only [Bool.and_true] at h
    refine ⟨?_, rfl, rfl⟩
    show (!isWellFormedEpiweek f) = false
    simp [h]
  · simp only [Bool.and_eq_true, decide_eq_true_eq] at h
    obtain ⟨⟨h1, h2⟩, h3⟩ := h
    refine ⟨?_, ?_, ?_⟩
    · show (!isWellFormedEpiweek f) = false
      simp [h1]
    · show (!isWellFormedEpiweek l) = false
      simp [h2]
    · show decide (f > l) = false
      simp only [decide_eq_false_iff_not]
      omega

/-- C10: when `--location` is omitted (parsed as None), `main` raises before
`update` is ever called — with overrides that pass the sanity checks the
raise is precisely the attribute access on None — and the full location set
is selected only by passing the literal `all`. -/
theorem main_requires_location (args : Args) (w : World)
    (h : args.location = none) :
    isErr (main args w) = true ∧
    (epiweekChecksPass args = true →
      main args w =
        Except.error "AttributeError: NoneType object has no attribute lower") ∧
    (epiweekChecksPass args = true →
      main { args with location := some "all" } w =
        Except.ok (update w LOCATIONS args.first args.last args.force_update
          (!args.skip_email))) := by
  refine ⟨?_, fun hc => ?_, fun hc => ?_⟩
  · unfold main
    rw [h]
    split
    · rfl
    · split
      · rfl
      · split
        · rfl
        · rfl
  · obtain ⟨g1, g2, g3⟩ := epiweekChecks_components args hc
    simp [main, g1, g2, g3, h]
  · obtain ⟨g1, g2, g3⟩ := epiweekChecks_components args hc
    simp only [main, g1, g2, g3, Bool.false_eq_true, if_false]
    have hall : lowerStr "all" = "all" := by decide
    rw [if_pos hall]

def argsW10 : Args :=
  { location := none, first := none, last := none,
    force_update := false, skip_email := false }

theorem main_requires_location_witness :
    isErr (main argsW10 ⟨[], [], true, 202040⟩) = true ∧
    main argsW10 ⟨[], [], true, 202040⟩ =
      Except.error "AttributeError: NoneType object has no attribute lower" ∧
    main { argsW10 with location := some "all" } ⟨[], [], true, 202040⟩ =
      Except.ok (update ⟨[], [], true, 202040⟩ LOCATIONS none none false true) := by
  have h := main_requires_location argsW10 ⟨[], [], true, 202040⟩ rfl
  exact ⟨h.1, h.2.1 rfl, h.2.2 rfl⟩

end Quidel
